import Mathlib

/-!
Verification of the guest-page mapping cache of libbdvmi
(`src/bdvmixencache.cpp`, class `XenPageCache`).

The embedding models:
  * `CacheInfo`       — one cache entry (`accessed`, `in_use`, `pointer`);
  * `CacheState`      — the mutable members of `XenPageCache`
                        (`cache_`, `reverseCache_`, `cacheLimit_`,
                        the process-wide `generateIndex` counter,
                        validity of `xci_`, and `linuxMajVersion_`);
  * `checkPages`, `setLimit`, `update`, `release`, `insertNew`,
    `cleanup`, and the destructor (`teardown`).

Host pointers are modelled as natural numbers (`0`/`none` standing for
`nullptr` through `Option Nat`).  The external collaborators appear as
explicit arguments: the result of `xc_map_foreign_range` is an
`Option Nat` (the fresh host pointer, or `none` on failure), and the
`mincore` probe is a return value (`Int`, negative on failure) together
with the low bit of its output vector (`vec0`).  Effects on the outside
world are returned explicitly: the list of `munmap`ed pointers, the
number of provider (`xc_map_foreign_range`) calls, and the number of
`StatsCollector` increments.

`std::map` / `std::multimap` are modelled by association lists with
no duplicate keys; the multimap ordering of `cleanup` (ascending
`accessed`, ties in ascending gfn order, as produced by inserting from
the gfn-sorted `cache_`) is obtained by sorting candidate pairs
`(accessed, gfn)` lexicographically.
-/

namespace Bdvmi

/-- Return codes (`MapReturnCode`) used by `XenPageCache`. -/
inductive MapReturnCode where
  | MAP_SUCCESS
  | MAP_FAILED_GENERIC
  | MAP_PAGE_NOT_PRESENT
deriving DecidableEq, Repr

/-- One `CacheInfo` entry: recency stamp, reference count, host pointer.
The reference count is a mathematical integer (the source decrements it
without a guard; the entry type lives in the class header). -/
structure CacheInfo where
  accessed : Nat
  in_use : Int
  pointer : Nat
deriving DecidableEq, Repr

/-- First value bound to key `k` in an association list (`std::map::find`). -/
def lookupKey {α : Type} (k : Nat) : List (Nat × α) → Option α
  | [] => none
  | (k', v) :: rest => if k' = k then some v else lookupKey k rest

/-- Remove the entry with key `k` (`std::map::erase`). -/
def eraseKey {α : Type} (k : Nat) (l : List (Nat × α)) : List (Nat × α) :=
  l.filter (fun e => decide (e.1 ≠ k))

/-- Assignment `m[k] = v`: assign in place when the key exists, append otherwise. -/
def setKey {α : Type} (k : Nat) (v : α) (l : List (Nat × α)) : List (Nat × α) :=
  if (lookupKey k l).isSome then l.map (fun e => if e.1 = k then (k, v) else e)
  else l ++ [(k, v)]

/-- The mutable state of one `XenPageCache` instance. -/
structure CacheState where
  cache : List (Nat × CacheInfo)
  reverseCache : List (Nat × Nat)
  cacheLimit : Nat
  nextIndex : Nat
  xciValid : Bool
  linuxMajVersion : Int
deriving DecidableEq, Repr

/-- Model of `XenPageCache::checkPages`: with `linuxMajVersion_ < 4`, a failed
`mincore` call (`mincoreRet < 0`) or a clear resident bit
(`vec0 &&& 1 = 0`) means the page is treated as not present;
otherwise the page is treated as present. -/
def checkPages (linuxMajVersion : Int) (mincoreRet : Int) (vec0 : Nat) : Bool :=
  if linuxMajVersion < 4 ∧ (mincoreRet < 0 ∨ vec0 &&& 1 = 0) then false
  else true

/-- Model of `XenPageCache::setLimit`: rejects limits below 50, otherwise updates. -/
def setLimit (limit : Nat) (s : CacheState) : Bool × CacheState :=
  if limit < 50 then (false, s)
  else (true, { s with cacheLimit := limit })

/-- Lexicographic order on `(accessed, gfn)` pairs: the iteration order of
the `timeOrderedGFNs` multimap (keys ascending; equal keys appear in
insertion order, which is ascending gfn order since `cache_` is iterated
in key order). -/
def pairLe (a b : Nat × Nat) : Prop :=
  a.1 < b.1 ∨ (a.1 = b.1 ∧ a.2 ≤ b.2)

instance : DecidableRel pairLe := fun a b => by
  unfold pairLe; exact inferInstance

instance : IsTotal (Nat × Nat) pairLe := by
  constructor
  intro a b
  obtain ⟨a1, a2⟩ := a
  obtain ⟨b1, b2⟩ := b
  simp only [pairLe]
  omega

instance : IsTrans (Nat × Nat) pairLe := by
  constructor
  intro a b c
  obtain ⟨a1, a2⟩ := a
  obtain ⟨b1, b2⟩ := b
  obtain ⟨c1, c2⟩ := c
  simp only [pairLe]
  omega

/-- The `timeOrderedGFNs` multimap of `XenPageCache::cleanup`: the
`(accessed, gfn)` pairs of all entries with `in_use < 1`, in ascending
lexicographic order. -/
def timeOrderedGFNs (cache : List (Nat × CacheInfo)) : List (Nat × Nat) :=
  List.insertionSort pairLe
    ((cache.filter (fun e => decide (e.2.in_use < 1))).map
      (fun e => (e.2.accessed, e.1)))

/-- Accumulator of the reclamation loop of `cleanup`: the two indices
plus the pointers `munmap`ed so far. -/
structure CleanupAcc where
  cache : List (Nat × CacheInfo)
  reverseCache : List (Nat × Nat)
  unmaps : List Nat
deriving DecidableEq, Repr

/-- The reclamation loop of `XenPageCache::cleanup`: walk the
time-ordered candidates; stop once `count` reaches `cacheLimit_ / 2`;
skip candidates no longer found; otherwise `munmap` the pointer and
erase the entry from both indices. -/
def cleanupLoop (halfLimit : Nat) :
    List (Nat × Nat) → Nat → CleanupAcc → CleanupAcc
  | [], _, acc => acc
  | (_, gfn) :: rest, count, acc =>
    if halfLimit ≤ count then acc
    else
      match lookupKey gfn acc.cache with
      | none => cleanupLoop halfLimit rest (count + 1) acc
      | some ci =>
          cleanupLoop halfLimit rest (count + 1)
            ⟨eraseKey gfn acc.cache, eraseKey ci.pointer acc.reverseCache,
              acc.unmaps ++ [ci.pointer]⟩

/-- Model of `XenPageCache::cleanup`: returns the new state and the list of
pointers that were `munmap`ed. -/
def cleanup (s : CacheState) : CacheState × List Nat :=
  let acc := cleanupLoop (s.cacheLimit / 2) (timeOrderedGFNs s.cache) 0
    ⟨s.cache, s.reverseCache, []⟩
  ({ s with cache := acc.cache, reverseCache := acc.reverseCache }, acc.unmaps)

/-- Result of one `update` / `insertNew` call: the returned
`MapReturnCode`, the out-parameter `pointer` (`none` = `nullptr`), the
new cache state, the pointers `munmap`ed during the call, the number of
`xc_map_foreign_range` calls, and the number of
`StatsCollector` increments. -/
structure OpResult where
  status : MapReturnCode
  pointer : Option Nat
  state : CacheState
  unmaps : List Nat
  providerCalls : Nat
  statIncs : Nat
deriving DecidableEq, Repr

/-- Model of `XenPageCache::insertNew`: null-handle guard; `cleanup` when the
store is at or over capacity; `StatsCollector` increment; recency stamp
from `generateIndex()`; provider map call (`mapResult`); residency
validation (`checkPages`); insertion into both indices on success. -/
def insertNew (gfn : Nat) (mapResult : Option Nat) (mincoreRet : Int)
    (vec0 : Nat) (s : CacheState) : OpResult :=
  if s.xciValid = false then
    ⟨.MAP_FAILED_GENERIC, none, s, [], 0, 0⟩
  else
    let cleaned := if s.cacheLimit ≤ s.cache.length then cleanup s else (s, [])
    let s1 := cleaned.1
    let stamp := s1.nextIndex
    let s2 := { s1 with nextIndex := s1.nextIndex + 1 }
    match mapResult with
    | none => ⟨.MAP_FAILED_GENERIC, none, s2, cleaned.2, 1, 1⟩
    | some p =>
      if checkPages s2.linuxMajVersion mincoreRet vec0 = false then
        ⟨.MAP_PAGE_NOT_PRESENT, none, s2, cleaned.2 ++ [p], 1, 1⟩
      else
        ⟨.MAP_SUCCESS, some p,
          { s2 with cache := setKey gfn ⟨stamp, 1, p⟩ s2.cache,
                    reverseCache := setKey p gfn s2.reverseCache },
          cleaned.2, 1, 1⟩

/-- Model of `XenPageCache::update` (the public acquire): null-handle guard; on a
hit restamp `accessed`, increment `in_use` and return the stored
pointer; on a miss delegate to `insertNew`. -/
def update (gfn : Nat) (mapResult : Option Nat) (mincoreRet : Int)
    (vec0 : Nat) (s : CacheState) : OpResult :=
  if s.xciValid = false then
    ⟨.MAP_FAILED_GENERIC, none, s, [], 0, 0⟩
  else
    match lookupKey gfn s.cache with
    | none => insertNew gfn mapResult mincoreRet vec0 s
    | some ci =>
      ⟨.MAP_SUCCESS, some ci.pointer,
        { s with
            cache := setKey gfn
              { ci with accessed := s.nextIndex, in_use := ci.in_use + 1 }
              s.cache,
            nextIndex := s.nextIndex + 1 },
        [], 0, 0⟩

/-- Model of `XenPageCache::release`: reverse-index lookup, forward lookup, then
an unguarded decrement of `in_use`; unknown pointers are a no-op. -/
def release (ptr : Nat) (s : CacheState) : CacheState :=
  match lookupKey ptr s.reverseCache with
  | none => s
  | some gfn =>
    match lookupKey gfn s.cache with
    | none => s
    | some ci =>
      { s with cache := setKey gfn { ci with in_use := ci.in_use - 1 } s.cache }

/-- Model of `XenPageCache::~XenPageCache`: `munmap` every live mapping and drop
both indices. -/
def teardown (s : CacheState) : CacheState × List Nat :=
  ({ s with cache := [], reverseCache := [] },
    s.cache.map (fun e => e.2.pointer))

/-- Association-list well-formedness: no duplicate keys
(the `std::map` invariant). -/
def wfKeys {α : Type} (l : List (Nat × α)) : Prop :=
  (l.map Prod.fst).Nodup

instance {α : Type} (l : List (Nat × α)) : Decidable (wfKeys l) := by
  unfold wfKeys
  infer_instance

/-- Well-formed state: both indices have no duplicate keys. -/
def wfS (s : CacheState) : Prop :=
  wfKeys s.cache ∧ wfKeys s.reverseCache

instance (s : CacheState) : Decidable (wfS s) := by
  unfold wfS
  infer_instance

/-- Duality of a forward/reverse index pair: every forward entry's
pointer maps back to its gfn, and every reverse entry comes from a
forward entry with that pointer. -/
def dualP (c : List (Nat × CacheInfo)) (r : List (Nat × Nat)) : Prop :=
  (∀ g ci, lookupKey g c = some ci → lookupKey ci.pointer r = some g) ∧
  (∀ p g, lookupKey p r = some g → ∃ ci, lookupKey g c = some ci ∧ ci.pointer = p)

/-- Duality of the two indices of a cache state. -/
def dualS (s : CacheState) : Prop :=
  dualP s.cache s.reverseCache

/-- States reachable by the public operations from a freshly constructed
cache.  The provider is assumed to hand out pointers that are not the
address of any currently live mapping (`mmap` never returns an address
that is already mapped). -/
inductive Reachable : CacheState → Prop where
  | init (xciValid : Bool) (limit : Nat) (linuxMaj : Int) :
      Reachable ⟨[], [], limit, 0, xciValid, linuxMaj⟩
  | stepUpdate (gfn : Nat) (mapResult : Option Nat) (mincoreRet : Int)
      (vec0 : Nat) (s : CacheState) (hs : Reachable s)
      (hfresh : ∀ p, mapResult = some p → lookupKey p s.reverseCache = none) :
      Reachable (update gfn mapResult mincoreRet vec0 s).state
  | stepRelease (ptr : Nat) (s : CacheState) (hs : Reachable s) :
      Reachable (release ptr s)
  | stepCleanup (s : CacheState) (hs : Reachable s) :
      Reachable (cleanup s).1
  | stepTeardown (s : CacheState) (hs : Reachable s) :
      Reachable (teardown s).1
  | stepSetLimit (limit : Nat) (s : CacheState) (hs : Reachable s) :
      Reachable (setLimit limit s).2

/-! ### Concrete states used as witnesses and counterexamples -/

/-- Freshly constructed cache: capacity 50, valid handle, kernel major 4. -/
def demoInit : CacheState := ⟨[], [], 50, 0, true, 4⟩

/-- One acquire/release round for gfn `g`, provider pointer `1000 + g`. -/
def demoStep (s : CacheState) (g : Nat) : CacheState :=
  release (1000 + g) (update g (some (1000 + g)) 0 1 s).state

/-- The spec scenario state: 50 distinct gfns acquired and released. -/
def demoFull : CacheState := (List.range 50).foldl demoStep demoInit

/-- Acquire of the 51st gfn on the full cache. -/
def demoAcquire : OpResult := update 50 (some 1050) 0 1 demoFull

/-- State `demoFull` on a host with kernel major 3 (residency probe active). -/
def demoFull3 : CacheState := { demoFull with linuxMajVersion := 3 }

/-- A fresh cache on a kernel-major-3 host. -/
def demoReject : CacheState := ⟨[], [], 50, 0, true, 3⟩

/-- State with gfn 7 pinned once (after one acquire). -/
def demoPin : CacheState := (update 7 (some 100) 0 1 demoInit).state

/-- State `demoPin` after releasing once (reference count 0). -/
def demoZero : CacheState := release 100 demoPin

/-- State `demoZero` after releasing a second time (reference count −1). -/
def demoNeg : CacheState := release 100 demoZero

/-- Mixed state: gfn 1 pinned, gfns 2 and 3 unpinned. -/
def demoMix : CacheState :=
  ⟨[(1, ⟨0, 1, 101⟩), (2, ⟨1, 0, 102⟩), (3, ⟨2, 0, 103⟩)],
   [(101, 1), (102, 2), (103, 3)], 50, 3, true, 4⟩

/-- State reached by acquiring gfn 1 on a fresh cache. -/
def demoDual : CacheState := (update 1 (some 11) 0 1 demoInit).state

/-! ### Association-list lemmas -/

theorem lookupKey_cons {α : Type} (k k' : Nat) (v : α) (rest : List (Nat × α)) :
    lookupKey k ((k', v) :: rest) = if k' = k then some v else lookupKey k rest := rfl

theorem lookupKey_eq_none {α : Type} (k : Nat) (l : List (Nat × α)) :
    lookupKey k l = none ↔ k ∉ l.map Prod.fst := by
  induction l with
  | nil => simp [lookupKey]
  | cons e rest ih =>
    obtain ⟨k', v⟩ := e
    by_cases h : k' = k
    · subst h
      simp [lookupKey_cons]
    · have h2 : k ≠ k' := fun he => h he.symm
      simp [lookupKey_cons, h, ih, h2]

theorem lookupKey_isSome {α : Type} (k : Nat) (l : List (Nat × α)) :
    (lookupKey k l).isSome = true ↔ k ∈ l.map Prod.fst := by
  rw [← Decidable.not_iff_not, ← lookupKey_eq_none]
  cases lookupKey k l <;> simp

theorem lookupKey_mem {α : Type} {k : Nat} {v : α} {l : List (Nat × α)}
    (h : lookupKey k l = some v) : (k, v) ∈ l := by
  induction l with
  | nil => simp [lookupKey] at h
  | cons e rest ih =>
    obtain ⟨k', v'⟩ := e
    by_cases hk : k' = k
    · subst hk
      rw [lookupKey_cons, if_pos rfl] at h
      rw [Option.some.injEq] at h
      subst h
      exact List.mem_cons_self _ _
    · rw [lookupKey_cons, if_neg hk] at h
      exact List.mem_cons_of_mem _ (ih h)

theorem mem_lookupKey {α : Type} {k : Nat} {v : α} {l : List (Nat × α)}
    (hnd : wfKeys l) (h : (k, v) ∈ l) : lookupKey k l = some v := by
  induction l with
  | nil => simp at h
  | cons e rest ih =>
    obtain ⟨k', v'⟩ := e
    simp only [wfKeys, List.map_cons, List.nodup_cons] at hnd
    rcases List.mem_cons.mp h with h1 | h1
    · rw [Prod.mk.injEq] at h1
      rw [lookupKey_cons, if_pos h1.1.symm, h1.2]
    · have hk : k' ≠ k := by
        intro he
        apply hnd.1
        rw [he]
        exact List.mem_map.mpr ⟨(k, v), h1, rfl⟩
      rw [lookupKey_cons, if_neg hk]
      exact ih hnd.2 h1

theorem lookupKey_eraseKey_self {α : Type} (k : Nat) (l : List (Nat × α)) :
    lookupKey k (eraseKey k l) = none := by
  rw [lookupKey_eq_none]
  intro h
  rcases List.mem_map.mp h with ⟨e, he, hfst⟩
  rcases List.mem_filter.mp he with ⟨_, hne⟩
  simp at hne
  exact hne hfst

theorem eraseKey_cons_self {α : Type} (k : Nat) (v : α) (rest : List (Nat × α)) :
    eraseKey k ((k, v) :: rest) = eraseKey k rest := by
  simp [eraseKey]

theorem eraseKey_cons_ne {α : Type} {k k' : Nat} (v : α) (rest : List (Nat × α))
    (h : k' ≠ k) : eraseKey k ((k', v) :: rest) = (k', v) :: eraseKey k rest := by
  simp [eraseKey, h]

theorem lookupKey_eraseKey_ne {α : Type} {k k' : Nat} (l : List (Nat × α))
    (h : k' ≠ k) : lookupKey k' (eraseKey k l) = lookupKey k' l := by
  induction l with
  | nil => rfl
  | cons e rest ih =>
    obtain ⟨k'', v⟩ := e
    by_cases h2 : k'' = k
    · subst h2
      have h3 : k'' ≠ k' := fun he => h he.symm
      rw [eraseKey_cons_self, ih, lookupKey_cons, if_neg h3]
    · rw [eraseKey_cons_ne v rest h2, lookupKey_cons, lookupKey_cons, ih]

theorem eraseKey_sub {α : Type} {k : Nat} {l : List (Nat × α)} {e : Nat × α}
    (h : e ∈ eraseKey k l) : e ∈ l :=
  List.mem_of_mem_filter h

theorem wfKeys_eraseKey {α : Type} (k : Nat) {l : List (Nat × α)}
    (h : wfKeys l) : wfKeys (eraseKey k l) := by
  unfold wfKeys eraseKey at *
  exact (List.Sublist.map Prod.fst (List.filter_sublist l)).nodup h

theorem length_eraseKey {α : Type} {k : Nat} {v : α} {l : List (Nat × α)}
    (hnd : wfKeys l) (h : lookupKey k l = some v) :
    (eraseKey k l).length + 1 = l.length := by
  induction l with
  | nil => simp [lookupKey] at h
  | cons e rest ih =>
    obtain ⟨k', v'⟩ := e
    simp only [wfKeys, List.map_cons, List.nodup_cons] at hnd
    by_cases hk : k' = k
    · subst hk
      have e2 : eraseKey k' rest = rest := by
        apply List.filter_eq_self.mpr
        intro e he
        simp only [decide_eq_true_eq]
        intro hfst
        exact hnd.1 (List.mem_map.mpr ⟨e, he, hfst⟩)
      rw [eraseKey_cons_self, e2, List.length_cons]
    · rw [lookupKey_cons, if_neg hk] at h
      rw [eraseKey_cons_ne v' rest hk, List.length_cons, List.length_cons,
        ih hnd.2 h]

theorem lookupKey_assign_self {α : Type} {k : Nat} (v : α) (l : List (Nat × α))
    (hs : (lookupKey k l).isSome = true) :
    lookupKey k (l.map (fun e => if e.1 = k then (k, v) else e)) = some v := by
  induction l with
  | nil => simp [lookupKey] at hs
  | cons e rest ih =>
    obtain ⟨k', v'⟩ := e
    by_cases hk : k' = k
    · subst hk
      have hf : (if ((k', v') : Nat × α).1 = k' then (k', v) else (k', v')) = (k', v) :=
        if_pos rfl
      rw [List.map_cons, hf, lookupKey_cons, if_pos rfl]
    · have hf : (if ((k', v') : Nat × α).1 = k then (k, v) else (k', v')) = (k', v') :=
        if_neg hk
      rw [lookupKey_cons, if_neg hk] at hs
      rw [List.map_cons, hf, lookupKey_cons, if_neg hk]
      exact ih hs

theorem lookupKey_append_single_self {α : Type} {k : Nat} (v : α) (l : List (Nat × α))
    (hn : lookupKey k l = none) :
    lookupKey k (l ++ [(k, v)]) = some v := by
  induction l with
  | nil => simp [lookupKey]
  | cons e rest ih =>
    obtain ⟨k', v'⟩ := e
    by_cases hk : k' = k
    · rw [lookupKey_cons, if_pos hk] at hn
      exact absurd hn (by simp)
    · rw [lookupKey_cons, if_neg hk] at hn
      rw [List.cons_append, lookupKey_cons, if_neg hk]
      exact ih hn

theorem lookupKey_setKey_self {α : Type} (k : Nat) (v : α) (l : List (Nat × α)) :
    lookupKey k (setKey k v l) = some v := by
  unfold setKey
  by_cases hs : (lookupKey k l).isSome = true
  · simp only [hs, if_true]
    exact lookupKey_assign_self v l hs
  · simp only [hs, if_false]
    apply lookupKey_append_single_self
    cases h : lookupKey k l
    · rfl
    · rw [h] at hs
      simp at hs

theorem lookupKey_mapAssign_ne {α : Type} {k k' : Nat} (v : α) (l : List (Nat × α))
    (h : k' ≠ k) :
    lookupKey k' (l.map (fun e => if e.1 = k then (k, v) else e)) = lookupKey k' l := by
  induction l with
  | nil => rfl
  | cons e rest ih =>
    obtain ⟨k'', v''⟩ := e
    by_cases hk : k'' = k
    · subst hk
      have hf : (if ((k'', v'') : Nat × α).1 = k'' then (k'', v) else (k'', v'')) = (k'', v) :=
        if_pos rfl
      have h3 : k'' ≠ k' := fun he => h he.symm
      rw [List.map_cons, hf, lookupKey_cons, if_neg h3, lookupKey_cons, if_neg h3, ih]
    · have hf : (if ((k'', v'') : Nat × α).1 = k then (k, v) else (k'', v'')) = (k'', v'') :=
        if_neg hk
      rw [List.map_cons, hf, lookupKey_cons, lookupKey_cons, ih]

theorem lookupKey_append_single_ne {α : Type} {k k' : Nat} (v : α) (l : List (Nat × α))
    (h : k' ≠ k) : lookupKey k' (l ++ [(k, v)]) = lookupKey k' l := by
  induction l with
  | nil =>
    have h2 : k ≠ k' := fun he => h he.symm
    simp [lookupKey, lookupKey_cons, h2]
  | cons e rest ih =>
    obtain ⟨k'', v''⟩ := e
    rw [List.cons_append, lookupKey_cons, lookupKey_cons, ih]

theorem lookupKey_setKey_ne {α : Type} {k k' : Nat} (v : α) (l : List (Nat × α))
    (h : k' ≠ k) : lookupKey k' (setKey k v l) = lookupKey k' l := by
  unfold setKey
  by_cases hs : (lookupKey k l).isSome = true
  · simp only [hs, if_true]
    exact lookupKey_mapAssign_ne v l h
  · simp only [hs, if_false]
    exact lookupKey_append_single_ne v l h

theorem wfKeys_setKey {α : Type} (k : Nat) (v : α) {l : List (Nat × α)}
    (h : wfKeys l) : wfKeys (setKey k v l) := by
  unfold setKey
  by_cases hs : (lookupKey k l).isSome = true
  · rw [if_pos hs]
    unfold wfKeys at *
    have he : (l.map (fun e => if e.1 = k then (k, v) else e)).map Prod.fst
        = l.map Prod.fst := by
      rw [List.map_map]
      apply List.map_congr_left
      intro e _
      by_cases hek : e.1 = k <;> simp [hek]
    rw [he]
    exact h
  · rw [if_neg hs]
    unfold wfKeys at *
    rw [List.map_append]
    simp only [List.map_cons, List.map_nil]
    rw [List.nodup_append]
    refine ⟨h, List.nodup_singleton k, ?_⟩
    intro a ha hb
    simp only [List.mem_singleton] at hb
    subst hb
    have hn : lookupKey a l = none := by
      cases hl : lookupKey a l
      · rfl
      · rw [hl] at hs
        simp at hs
    exact (lookupKey_eq_none a l).mp hn ha

theorem lookupKey_eraseKey_none {α : Type} {g k : Nat} {l : List (Nat × α)}
    (h : lookupKey g l = none) : lookupKey g (eraseKey k l) = none := by
  by_cases hg : g = k
  · subst hg
    exact lookupKey_eraseKey_self g l
  · rw [lookupKey_eraseKey_ne l hg]
    exact h

/-! ### Lemmas about the reclamation loop of `cleanup` -/

theorem cleanupLoop_lookup_of_not_mem (halfLimit : Nat) (cands : List (Nat × Nat))
    (count : Nat) (acc : CleanupAcc) {g : Nat} (h : g ∉ cands.map Prod.snd) :
    lookupKey g (cleanupLoop halfLimit cands count acc).cache = lookupKey g acc.cache := by
  induction cands generalizing count acc with
  | nil => rfl
  | cons e rest ih =>
    obtain ⟨a, gfn⟩ := e
    simp only [List.map_cons, List.mem_cons] at h
    push_neg at h
    by_cases hc : halfLimit ≤ count
    · simp [cleanupLoop, hc]
    · simp only [cleanupLoop, if_neg hc]
      cases hci : lookupKey gfn acc.cache with
      | none => exact ih _ _ h.2
      | some ci =>
        rw [ih _ _ h.2]
        exact lookupKey_eraseKey_ne _ h.1

theorem cleanupLoop_lookup_none (halfLimit : Nat) (cands : List (Nat × Nat))
    (count : Nat) (acc : CleanupAcc) {g : Nat}
    (h : lookupKey g acc.cache = none) :
    lookupKey g (cleanupLoop halfLimit cands count acc).cache = none := by
  induction cands generalizing count acc with
  | nil => exact h
  | cons e rest ih =>
    obtain ⟨a, gfn⟩ := e
    by_cases hc : halfLimit ≤ count
    · simp [cleanupLoop, hc, h]
    · simp only [cleanupLoop, if_neg hc]
      cases hci : lookupKey gfn acc.cache with
      | none => exact ih _ _ h
      | some ci => exact ih _ _ (lookupKey_eraseKey_none h)

theorem cleanupLoop_rlookup_none (halfLimit : Nat) (cands : List (Nat × Nat))
    (count : Nat) (acc : CleanupAcc) {p : Nat}
    (h : lookupKey p acc.reverseCache = none) :
    lookupKey p (cleanupLoop halfLimit cands count acc).reverseCache = none := by
  induction cands generalizing count acc with
  | nil => exact h
  | cons e rest ih =>
    obtain ⟨a, gfn⟩ := e
    by_cases hc : halfLimit ≤ count
    · simp [cleanupLoop, hc, h]
    · simp only [cleanupLoop, if_neg hc]
      cases hci : lookupKey gfn acc.cache with
      | none => exact ih _ _ h
      | some ci => exact ih _ _ (lookupKey_eraseKey_none h)

theorem cleanupLoop_lookup (halfLimit : Nat) (cands : List (Nat × Nat))
    (count : Nat) (acc : CleanupAcc) (g : Nat)
    (hwf : wfKeys acc.cache)
    (hnd : (cands.map Prod.snd).Nodup)
    (hpres : ∀ e ∈ cands, (lookupKey e.2 acc.cache).isSome = true) :
    lookupKey g (cleanupLoop halfLimit cands count acc).cache =
      if g ∈ (cands.take (halfLimit - count)).map Prod.snd then none
      else lookupKey g acc.cache := by
  induction cands generalizing count acc with
  | nil => simp [cleanupLoop]
  | cons e rest ih =>
    obtain ⟨a, gfn⟩ := e
    simp only [List.map_cons, List.nodup_cons] at hnd
    by_cases hc : halfLimit ≤ count
    · have h0 : halfLimit - count = 0 := Nat.sub_eq_zero_of_le hc
      simp [cleanupLoop, hc, h0]
    · have hs := hpres (a, gfn) (List.mem_cons_self _ _)
      obtain ⟨ci, hci⟩ := Option.isSome_iff_exists.mp hs
      have htake : (halfLimit - count) = (halfLimit - (count + 1)) + 1 := by omega
      simp only [cleanupLoop, if_neg hc, hci]
      have hwf' : wfKeys (eraseKey gfn acc.cache) := wfKeys_eraseKey gfn hwf
      have hpres' : ∀ e ∈ rest,
          (lookupKey e.2 (eraseKey gfn acc.cache)).isSome = true := by
        intro e he
        have hne : e.2 ≠ gfn := by
          intro heq
          exact hnd.1 (heq ▸ List.mem_map.mpr ⟨e, he, rfl⟩)
        rw [lookupKey_eraseKey_ne _ hne]
        exact hpres e (List.mem_cons_of_mem _ he)
      rw [ih _ ⟨eraseKey gfn acc.cache, eraseKey ci.pointer acc.reverseCache,
            acc.unmaps ++ [ci.pointer]⟩ hwf' hnd.2 hpres']
      rw [htake, List.take_succ_cons, List.map_cons]
      by_cases hg : g = gfn
      · subst hg
        have h1 : lookupKey g (eraseKey g acc.cache) = none :=
          lookupKey_eraseKey_self g acc.cache
        by_cases hmem : g ∈ (rest.take (halfLimit - (count + 1))).map Prod.snd
        · simp [hmem, h1]
        · simp [hmem, h1]
      · rw [lookupKey_eraseKey_ne _ hg]
        by_cases hmem : g ∈ (rest.take (halfLimit - (count + 1))).map Prod.snd
        · simp [hmem, hg]
        · simp [hmem, hg]

theorem cleanupLoop_length (halfLimit : Nat) (cands : List (Nat × Nat))
    (count : Nat) (acc : CleanupAcc)
    (hwf : wfKeys acc.cache)
    (hnd : (cands.map Prod.snd).Nodup)
    (hpres : ∀ e ∈ cands, (lookupKey e.2 acc.cache).isSome = true) :
    (cleanupLoop halfLimit cands count acc).cache.length
      + min (halfLimit - count) cands.length = acc.cache.length := by
  induction cands generalizing count acc with
  | nil => simp [cleanupLoop]
  | cons e rest ih =>
    obtain ⟨a, gfn⟩ := e
    simp only [List.map_cons, List.nodup_cons] at hnd
    by_cases hc : halfLimit ≤ count
    · have h0 : halfLimit - count = 0 := Nat.sub_eq_zero_of_le hc
      simp [cleanupLoop, hc, h0]
    · have hs := hpres (a, gfn) (List.mem_cons_self _ _)
      obtain ⟨ci, hci⟩ := Option.isSome_iff_exists.mp hs
      simp only [cleanupLoop, if_neg hc, hci]
      have hwf' : wfKeys (eraseKey gfn acc.cache) := wfKeys_eraseKey gfn hwf
      have hpres' : ∀ e ∈ rest,
          (lookupKey e.2 (eraseKey gfn acc.cache)).isSome = true := by
        intro e he
        have hne : e.2 ≠ gfn := by
          intro heq
          exact hnd.1 (heq ▸ List.mem_map.mpr ⟨e, he, rfl⟩)
        rw [lookupKey_eraseKey_ne _ hne]
        exact hpres e (List.mem_cons_of_mem _ he)
      have hlen := length_eraseKey hwf hci
      have := ih (count + 1) ⟨eraseKey gfn acc.cache, eraseKey ci.pointer acc.reverseCache,
        acc.unmaps ++ [ci.pointer]⟩ hwf' hnd.2 hpres'
      simp only [List.length_cons]
      dsimp only at this hlen
      rw [Nat.min_def] at this ⊢
      split_ifs at this ⊢ <;> omega

theorem cleanupLoop_unmaps_sub (halfLimit : Nat) (cands : List (Nat × Nat))
    (count : Nat) (acc : CleanupAcc) {x : Nat}
    (h : x ∈ (cleanupLoop halfLimit cands count acc).unmaps) :
    x ∈ acc.unmaps ∨ x ∈ acc.cache.map (fun e => e.2.pointer) := by
  induction cands generalizing count acc with
  | nil => exact Or.inl h
  | cons e rest ih =>
    obtain ⟨a, gfn⟩ := e
    by_cases hc : halfLimit ≤ count
    · simp only [cleanupLoop, if_pos hc] at h
      exact Or.inl h
    · simp only [cleanupLoop, if_neg hc] at h
      cases hci : lookupKey gfn acc.cache with
      | none =>
        rw [hci] at h
        exact ih _ _ h
      | some ci =>
        rw [hci] at h
        rcases ih _ _ h with h1 | h1
        · rcases List.mem_append.mp h1 with h2 | h2
          · exact Or.inl h2
          · simp only [List.mem_singleton] at h2
            subst h2
            exact Or.inr (List.mem_map.mpr ⟨(gfn, ci), lookupKey_mem hci, rfl⟩)
        · rcases List.mem_map.mp h1 with ⟨e, he, hx⟩
          exact Or.inr (List.mem_map.mpr ⟨e, eraseKey_sub he, hx⟩)

/-! ### Lemmas about `timeOrderedGFNs` -/

theorem mem_timeOrderedGFNs {c : List (Nat × CacheInfo)} {a g : Nat} (hwf : wfKeys c) :
    (a, g) ∈ timeOrderedGFNs c ↔
      ∃ ci, lookupKey g c = some ci ∧ ci.in_use < 1 ∧ ci.accessed = a := by
  unfold timeOrderedGFNs
  rw [(List.perm_insertionSort pairLe _).mem_iff]
  constructor
  · intro h
    rcases List.mem_map.mp h with ⟨e, he, heq⟩
    rcases List.mem_filter.mp he with ⟨hmem, huse⟩
    rw [Prod.mk.injEq] at heq
    refine ⟨e.2, ?_, by simpa using huse, heq.1⟩
    have hpe : (e.1, e.2) ∈ c := by
      rw [Prod.mk.eta]
      exact hmem
    rw [heq.2] at hpe
    exact mem_lookupKey hwf hpe
  · rintro ⟨ci, hci, huse, hacc⟩
    apply List.mem_map.mpr
    refine ⟨(g, ci), List.mem_filter.mpr ⟨lookupKey_mem hci, by simpa using huse⟩, ?_⟩
    simp [hacc]

theorem nodup_timeOrderedGFNs {c : List (Nat × CacheInfo)} (hwf : wfKeys c) :
    ((timeOrderedGFNs c).map Prod.snd).Nodup := by
  unfold timeOrderedGFNs
  have hperm := (List.perm_insertionSort pairLe
    ((c.filter (fun e => decide (e.2.in_use < 1))).map
      (fun e => (e.2.accessed, e.1)))).map Prod.snd
  apply hperm.nodup_iff.mpr
  rw [List.map_map]
  have he : (c.filter (fun e => decide (e.2.in_use < 1))).map
      (Prod.snd ∘ fun e => (e.2.accessed, e.1))
      = (c.filter (fun e => decide (e.2.in_use < 1))).map Prod.fst :=
    List.map_congr_left (fun e _ => rfl)
  rw [he]
  exact (List.Sublist.map Prod.fst (List.filter_sublist c)).nodup hwf

theorem timeOrderedGFNs_present {c : List (Nat × CacheInfo)} {e : Nat × Nat}
    (he : e ∈ timeOrderedGFNs c) : (lookupKey e.2 c).isSome = true := by
  unfold timeOrderedGFNs at he
  rw [(List.perm_insertionSort pairLe _).mem_iff] at he
  rcases List.mem_map.mp he with ⟨e', he', heq⟩
  rcases List.mem_filter.mp he' with ⟨hmem, _⟩
  rw [lookupKey_isSome, ← heq]
  exact List.mem_map.mpr ⟨e', hmem, rfl⟩

theorem sorted_timeOrderedGFNs (c : List (Nat × CacheInfo)) :
    List.Sorted pairLe (timeOrderedGFNs c) :=
  List.sorted_insertionSort pairLe _

theorem length_timeOrderedGFNs (c : List (Nat × CacheInfo)) :
    (timeOrderedGFNs c).length
      = (c.filter (fun e => decide (e.2.in_use < 1))).length := by
  unfold timeOrderedGFNs
  rw [(List.perm_insertionSort pairLe _).length_eq, List.length_map]

/-! ### Duality preservation -/

theorem dualP_eraseKey {c : List (Nat × CacheInfo)} {r : List (Nat × Nat)}
    {g : Nat} {ci : CacheInfo}
    (hd : dualP c r) (hci : lookupKey g c = some ci) :
    dualP (eraseKey g c) (eraseKey ci.pointer r) := by
  constructor
  · intro g' ci' h'
    by_cases hg : g' = g
    · subst hg
      rw [lookupKey_eraseKey_self] at h'
      cases h'
    · rw [lookupKey_eraseKey_ne _ hg] at h'
      have hr := hd.1 g' ci' h'
      have hne : ci'.pointer ≠ ci.pointer := by
        intro he
        have hr2 := hd.1 g ci hci
        rw [he] at hr
        exact hg (Option.some.inj (hr.symm.trans hr2))
      rw [lookupKey_eraseKey_ne _ hne]
      exact hr
  · intro p g' h'
    by_cases hp : p = ci.pointer
    · subst hp
      rw [lookupKey_eraseKey_self] at h'
      cases h'
    · rw [lookupKey_eraseKey_ne _ hp] at h'
      obtain ⟨ci', hci', hpe⟩ := hd.2 p g' h'
      have hg : g' ≠ g := by
        intro he
        subst he
        have hcc : ci' = ci := Option.some.inj (hci'.symm.trans hci)
        apply hp
        rw [← hpe, hcc]
      refine ⟨ci', ?_, hpe⟩
      rw [lookupKey_eraseKey_ne _ hg]
      exact hci'

theorem cleanupLoop_dual (halfLimit : Nat) (cands : List (Nat × Nat))
    (count : Nat) (acc : CleanupAcc)
    (hwc : wfKeys acc.cache) (hwr : wfKeys acc.reverseCache)
    (hd : dualP acc.cache acc.reverseCache) :
    wfKeys (cleanupLoop halfLimit cands count acc).cache ∧
    wfKeys (cleanupLoop halfLimit cands count acc).reverseCache ∧
    dualP (cleanupLoop halfLimit cands count acc).cache
      (cleanupLoop halfLimit cands count acc).reverseCache := by
  induction cands generalizing count acc with
  | nil => exact ⟨hwc, hwr, hd⟩
  | cons e rest ih =>
    obtain ⟨a, gfn⟩ := e
    by_cases hc : halfLimit ≤ count
    · simp only [cleanupLoop, if_pos hc]
      exact ⟨hwc, hwr, hd⟩
    · simp only [cleanupLoop, if_neg hc]
      cases hci : lookupKey gfn acc.cache with
      | none => exact ih _ _ hwc hwr hd
      | some ci =>
        exact ih _ _ (wfKeys_eraseKey _ hwc) (wfKeys_eraseKey _ hwr)
          (dualP_eraseKey hd hci)

theorem cleanup_preserves (s : CacheState) (hw : wfS s) (hd : dualS s) :
    wfS (cleanup s).1 ∧ dualS (cleanup s).1 := by
  have h := cleanupLoop_dual (s.cacheLimit / 2) (timeOrderedGFNs s.cache) 0
    ⟨s.cache, s.reverseCache, []⟩ hw.1 hw.2 hd
  exact ⟨⟨h.1, h.2.1⟩, h.2.2⟩

theorem cleanup_lookup_none {s : CacheState} {g : Nat}
    (h : lookupKey g s.cache = none) :
    lookupKey g (cleanup s).1.cache = none :=
  cleanupLoop_lookup_none _ _ _ _ h

theorem cleanup_rlookup_none {s : CacheState} {p : Nat}
    (h : lookupKey p s.reverseCache = none) :
    lookupKey p (cleanup s).1.reverseCache = none :=
  cleanupLoop_rlookup_none _ _ _ _ h

theorem dualP_setKey_samePointer {c : List (Nat × CacheInfo)} {r : List (Nat × Nat)}
    {g : Nat} {ci ci' : CacheInfo}
    (hd : dualP c r) (hci : lookupKey g c = some ci) (hp : ci'.pointer = ci.pointer) :
    dualP (setKey g ci' c) r := by
  constructor
  · intro g'' cj h
    by_cases hg : g'' = g
    · subst hg
      rw [lookupKey_setKey_self] at h
      have hcj : cj = ci' := (Option.some.inj h).symm
      subst hcj
      rw [hp]
      exact hd.1 g'' ci hci
    · rw [lookupKey_setKey_ne _ _ hg] at h
      exact hd.1 g'' cj h
  · intro p g'' h
    obtain ⟨cj, hcj, hpe⟩ := hd.2 p g'' h
    by_cases hg : g'' = g
    · subst hg
      have hcij : cj = ci := Option.some.inj (hcj.symm.trans hci)
      refine ⟨ci', lookupKey_setKey_self _ _ _, ?_⟩
      rw [hp, ← hcij, hpe]
    · refine ⟨cj, ?_, hpe⟩
      rw [lookupKey_setKey_ne _ _ hg]
      exact hcj

theorem dualP_insert {c : List (Nat × CacheInfo)} {r : List (Nat × Nat)}
    {g p stamp : Nat}
    (hd : dualP c r) (hg : lookupKey g c = none) (hp : lookupKey p r = none) :
    dualP (setKey g ⟨stamp, 1, p⟩ c) (setKey p g r) := by
  constructor
  · intro g' ci' h
    by_cases hgg : g' = g
    · subst hgg
      rw [lookupKey_setKey_self] at h
      have hcp : ci' = ⟨stamp, 1, p⟩ := (Option.some.inj h).symm
      subst hcp
      exact lookupKey_setKey_self p g' r
    · rw [lookupKey_setKey_ne _ _ hgg] at h
      have hr := hd.1 g' ci' h
      have hne : ci'.pointer ≠ p := by
        intro he
        rw [he, hp] at hr
        cases hr
      rw [lookupKey_setKey_ne _ _ hne]
      exact hr
  · intro p' g' h
    by_cases hpp : p' = p
    · subst hpp
      rw [lookupKey_setKey_self] at h
      have hgp : g' = g := (Option.some.inj h).symm
      subst hgp
      exact ⟨⟨stamp, 1, p'⟩, lookupKey_setKey_self _ _ _, rfl⟩
    · rw [lookupKey_setKey_ne _ _ hpp] at h
      obtain ⟨ci', hci', hpe⟩ := hd.2 p' g' h
      have hgg : g' ≠ g := by
        intro he
        subst he
        rw [hg] at hci'
        cases hci'
      refine ⟨ci', ?_, hpe⟩
      rw [lookupKey_setKey_ne _ _ hgg]
      exact hci'

theorem release_preserves (ptr : Nat) (s : CacheState) (hw : wfS s) (hd : dualS s) :
    wfS (release ptr s) ∧ dualS (release ptr s) := by
  unfold release
  cases hr : lookupKey ptr s.reverseCache with
  | none => exact ⟨hw, hd⟩
  | some gfn =>
    dsimp only
    cases hc : lookupKey gfn s.cache with
    | none => exact ⟨hw, hd⟩
    | some ci =>
      dsimp only
      exact ⟨⟨wfKeys_setKey _ _ hw.1, hw.2⟩, dualP_setKey_samePointer hd hc rfl⟩

theorem insertNew_preserves (gfn : Nat) (mr : Option Nat) (mc : Int) (v0 : Nat)
    (s : CacheState) (hw : wfS s) (hd : dualS s)
    (hg : lookupKey gfn s.cache = none)
    (hfresh : ∀ p, mr = some p → lookupKey p s.reverseCache = none) :
    wfS (insertNew gfn mr mc v0 s).state ∧ dualS (insertNew gfn mr mc v0 s).state := by
  by_cases hx : s.xciValid = false
  · simp only [insertNew, if_pos hx]
    exact ⟨hw, hd⟩
  · simp only [insertNew, if_neg hx]
    by_cases hcap : s.cacheLimit ≤ s.cache.length
    · rw [if_pos hcap]
      obtain ⟨hw1, hd1⟩ := cleanup_preserves s hw hd
      have hg1 : lookupKey gfn (cleanup s).1.cache = none := cleanup_lookup_none hg
      cases mr with
      | none => exact ⟨hw1, hd1⟩
      | some p =>
        have hp1 : lookupKey p (cleanup s).1.reverseCache = none :=
          cleanup_rlookup_none (hfresh p rfl)
        dsimp only
        split
        · exact ⟨hw1, hd1⟩
        · exact ⟨⟨wfKeys_setKey _ _ hw1.1, wfKeys_setKey _ _ hw1.2⟩,
            dualP_insert hd1 hg1 hp1⟩
    · rw [if_neg hcap]
      cases mr with
      | none => exact ⟨hw, hd⟩
      | some p =>
        have hp1 : lookupKey p s.reverseCache = none := hfresh p rfl
        dsimp only
        split
        · exact ⟨hw, hd⟩
        · exact ⟨⟨wfKeys_setKey _ _ hw.1, wfKeys_setKey _ _ hw.2⟩,
            dualP_insert hd hg hp1⟩

theorem update_preserves (gfn : Nat) (mr : Option Nat) (mc : Int) (v0 : Nat)
    (s : CacheState) (hw : wfS s) (hd : dualS s)
    (hfresh : ∀ p, mr = some p → lookupKey p s.reverseCache = none) :
    wfS (update gfn mr mc v0 s).state ∧ dualS (update gfn mr mc v0 s).state := by
  by_cases hx : s.xciValid = false
  · simp only [update, if_pos hx]
    exact ⟨hw, hd⟩
  · simp only [update, if_neg hx]
    cases hlg : lookupKey gfn s.cache with
    | none => exact insertNew_preserves gfn mr mc v0 s hw hd hlg hfresh
    | some ci =>
      dsimp only
      exact ⟨⟨wfKeys_setKey _ _ hw.1, hw.2⟩, dualP_setKey_samePointer hd hlg rfl⟩

theorem reachable_wf_dual (s : CacheState) (hs : Reachable s) : wfS s ∧ dualS s := by
  induction hs with
  | init xv lim lm =>
    refine ⟨⟨List.nodup_nil, List.nodup_nil⟩, ?_, ?_⟩
    · intro g ci h
      simp [lookupKey] at h
    · intro p g h
      simp [lookupKey] at h
  | stepUpdate gfn mr mc v0 s hsr hfresh ih =>
    exact update_preserves gfn mr mc v0 s ih.1 ih.2 hfresh
  | stepRelease ptr s hsr ih =>
    exact release_preserves ptr s ih.1 ih.2
  | stepCleanup s hsr ih =>
    exact cleanup_preserves s ih.1 ih.2
  | stepTeardown s hsr ih =>
    refine ⟨⟨List.nodup_nil, List.nodup_nil⟩, ?_, ?_⟩
    · intro g ci h
      simp [lookupKey] at h
    · intro p g h
      simp [lookupKey] at h
  | stepSetLimit lim s hsr ih =>
    unfold setLimit
    by_cases hl : lim < 50
    · rw [if_pos hl]
      exact ih
    · rw [if_neg hl]
      exact ih

/-! ### Claim theorems -/

/-- C8: `checkPages` returns "not present" (`false`) exactly when the host
kernel major version is below 4 (including the unread `-1` default) and
either the `mincore` probe fails (`mincoreRet < 0`) or the per-page
resident bit is clear; with kernel major ≥ 4 the probe is skipped and
the result is always "present" (`true`). -/
theorem checkPages_spec (maj mc : Int) (v0 : Nat) :
    (checkPages maj mc v0 = false ↔ maj < 4 ∧ (mc < 0 ∨ v0 &&& 1 = 0)) ∧
    (4 ≤ maj → checkPages maj mc v0 = true) := by
  unfold checkPages
  constructor
  · by_cases h : maj < 4 ∧ (mc < 0 ∨ v0 &&& 1 = 0)
    · rw [if_pos h]
      simpa using h
    · rw [if_neg h]
      constructor
      · intro htf
        cases htf
      · intro hc
        exact absurd hc h
  · intro h4
    have hn : ¬(maj < 4 ∧ (mc < 0 ∨ v0 &&& 1 = 0)) := fun hc => absurd hc.1 (by omega)
    rw [if_neg hn]

theorem checkPages_spec_witness :
    checkPages (-1) (-1) 1 = false ∧ checkPages 4 (-1) 0 = true :=
  ⟨(checkPages_spec (-1) (-1) 1).1.mpr ⟨by decide, Or.inl (by decide)⟩,
   (checkPages_spec 4 (-1) 0).2 (by decide)⟩

/-- C9: `setLimit x` with `x < 50` returns `false` and leaves the
capacity (and the whole state) unchanged; with `x ≥ 50` (including 50)
it sets the capacity to `x` and returns `true`. -/
theorem setLimit_spec (limit : Nat) (s : CacheState) :
    (limit < 50 → setLimit limit s = (false, s)) ∧
    (50 ≤ limit → setLimit limit s = (true, { s with cacheLimit := limit })) := by
  constructor
  · intro h
    simp [setLimit, h]
  · intro h
    have hn : ¬limit < 50 := by omega
    simp [setLimit, hn]

theorem setLimit_spec_witness :
    setLimit 49 demoInit = (false, demoInit) ∧
    setLimit 60 demoInit = (true, { demoInit with cacheLimit := 60 }) :=
  ⟨(setLimit_spec 49 demoInit).1 (by decide),
   (setLimit_spec 60 demoInit).2 (by decide)⟩

/-- C10: whenever `update` (the public acquire) returns a non-success
status, the out-parameter `pointer` is set to `nullptr` (`none`). -/
theorem acquire_failure_null_pointer (gfn : Nat) (mr : Option Nat) (mc : Int)
    (v0 : Nat) (s : CacheState)
    (h : (update gfn mr mc v0 s).status ≠ MapReturnCode.MAP_SUCCESS) :
    (update gfn mr mc v0 s).pointer = none := by
  revert h
  by_cases hx : s.xciValid = false
  · simp [update, hx]
  · simp only [update, if_neg hx]
    cases hlg : lookupKey gfn s.cache with
    | some ci =>
      intro h
      exact absurd rfl h
    | none =>
      simp only [insertNew, if_neg hx]
      cases mr with
      | none =>
        intro h
        rfl
      | some p =>
        dsimp only
        split_ifs <;> intro h
        all_goals first | rfl | exact absurd rfl h

theorem acquire_failure_null_pointer_witness :
    (update 5 none 0 1 demoInit).pointer = none :=
  acquire_failure_null_pointer 5 none 0 1 demoInit (by decide)

/-- C6 counterexample: the map-operation counter is incremented even when
the provider map call fails (`incStat` runs before
`xc_map_foreign_range`), contradicting "not incremented when the
provider map call fails". -/
theorem statInc_on_failed_map_counterexample :
    (update 5 none 0 1 demoInit).status = MapReturnCode.MAP_FAILED_GENERIC ∧
    (update 5 none 0 1 demoInit).statIncs = 1 := by
  decide

/-- C6 amended: the counter is incremented exactly once per provider map
attempt — it always equals the number of `xc_map_foreign_range` calls of
the operation, and is 1 exactly when the handle is valid and the gfn
misses the cache, regardless of map failure or validation rejection. -/
theorem statIncs_eq_providerCalls (gfn : Nat) (mr : Option Nat) (mc : Int)
    (v0 : Nat) (s : CacheState) :
    (update gfn mr mc v0 s).statIncs = (update gfn mr mc v0 s).providerCalls ∧
    (update gfn mr mc v0 s).statIncs
      = (if s.xciValid = true ∧ lookupKey gfn s.cache = none then 1 else 0) := by
  by_cases hx : s.xciValid = false
  · have hn : ¬(s.xciValid = true ∧ lookupKey gfn s.cache = none) := by
      rintro ⟨h1, -⟩
      rw [hx] at h1
      cases h1
    simp only [update, if_pos hx]
    rw [if_neg hn]
    exact ⟨by trivial, by trivial⟩
  · have hxt : s.xciValid = true := by
      cases h : s.xciValid
      · exact absurd h hx
      · rfl
    simp only [update, if_neg hx]
    cases hlg : lookupKey gfn s.cache with
    | some ci =>
      have hn : ¬(s.xciValid = true ∧ (some ci : Option CacheInfo) = none) := by
        rintro ⟨-, h2⟩
        cases h2
      dsimp only
      rw [if_neg hn]
      exact ⟨by trivial, by trivial⟩
    | none =>
      dsimp only
      rw [if_pos ⟨hxt, rfl⟩]
      simp only [insertNew, if_neg hx]
      cases mr with
      | none => exact ⟨by trivial, by trivial⟩
      | some p =>
        dsimp only
        split
        all_goals split <;> exact ⟨by trivial, by trivial⟩

/-- C7: an acquire of a gfn already present returns the stored pointer
with success, increments that entry's `in_use` by one, restamps its
`accessed` with the current clock value, leaves every other entry
unchanged, and performs no provider call, no counter increment and no
unmap. -/
theorem acquire_hit_spec (gfn : Nat) (mr : Option Nat) (mc : Int) (v0 : Nat)
    (s : CacheState) (ci : CacheInfo)
    (hx : s.xciValid = true) (hc : lookupKey gfn s.cache = some ci) :
    (update gfn mr mc v0 s).status = MapReturnCode.MAP_SUCCESS ∧
    (update gfn mr mc v0 s).pointer = some ci.pointer ∧
    lookupKey gfn (update gfn mr mc v0 s).state.cache
      = some ⟨s.nextIndex, ci.in_use + 1, ci.pointer⟩ ∧
    (∀ g', g' ≠ gfn →
      lookupKey g' (update gfn mr mc v0 s).state.cache = lookupKey g' s.cache) ∧
    (update gfn mr mc v0 s).state.nextIndex = s.nextIndex + 1 ∧
    (update gfn mr mc v0 s).providerCalls = 0 ∧
    (update gfn mr mc v0 s).statIncs = 0 ∧
    (update gfn mr mc v0 s).unmaps = [] := by
  have hxf : ¬s.xciValid = false := by
    rw [hx]
    exact fun h => by cases h
  simp only [update, if_neg hxf, hc]
  refine ⟨by trivial, by trivial, ?_, ?_, by trivial, by trivial, by trivial, by trivial⟩
  · exact lookupKey_setKey_self _ _ _
  · intro g' hne
    exact lookupKey_setKey_ne _ _ hne

theorem acquire_hit_spec_witness :
    (update 7 none 0 1 demoPin).status = MapReturnCode.MAP_SUCCESS ∧
    lookupKey 7 (update 7 none 0 1 demoPin).state.cache = some ⟨1, 2, 100⟩ :=
  ⟨(acquire_hit_spec 7 none 0 1 demoPin ⟨0, 1, 100⟩ (by decide) (by decide)).1,
   (acquire_hit_spec 7 none 0 1 demoPin ⟨0, 1, 100⟩ (by decide) (by decide)).2.2.1⟩

/-- C3 counterexample: releasing a pointer whose entry already has
reference count 0 drives the count to −1 — there is no clamp at zero.
(`demoNeg` is reached by one acquire of gfn 7 followed by two
releases.) -/
theorem release_underflow_counterexample :
    lookupKey 7 demoNeg.cache = some ⟨0, -1, 100⟩ ∧
    lookupKey 7 demoNeg.cache ≠ some ⟨0, 0, 100⟩ := by
  decide

/-- C3 amended: `release` on a cached pointer decrements the entry's
reference count by exactly one, unconditionally — releasing an entry at
count 0 yields −1 rather than clamping at zero. -/
theorem release_decrements_unconditionally (s : CacheState) (ptr g : Nat)
    (ci : CacheInfo)
    (hr : lookupKey ptr s.reverseCache = some g)
    (hc : lookupKey g s.cache = some ci) :
    lookupKey g (release ptr s).cache
      = some ⟨ci.accessed, ci.in_use - 1, ci.pointer⟩ := by
  unfold release
  rw [hr]
  dsimp only
  rw [hc]
  dsimp only
  exact lookupKey_setKey_self _ _ _

theorem release_decrements_unconditionally_witness :
    lookupKey 7 (release 100 demoZero).cache = some ⟨0, -1, 100⟩ :=
  release_decrements_unconditionally demoZero 100 7 ⟨0, 0, 100⟩
    (by decide) (by decide)

/-- C1: on any well-formed cache state, `cleanup` leaves every pinned
entry (`in_use ≥ 1`) present and unchanged; an entry is removed exactly
when it sits in the first `cacheLimit / 2` positions of the candidate
list; the candidate list is sorted by ascending `(accessed, gfn)`
(oldest first) and contains exactly the unpinned entries; and the number
of removals is `min (cacheLimit / 2) (number of unpinned entries)` — at
most `⌊capacity / 2⌋`, stopping early when the unpinned set is
exhausted. -/
theorem cleanup_evicts_only_unpinned_oldest (s : CacheState) (hwf : wfS s) :
    (∀ g ci, lookupKey g s.cache = some ci → 1 ≤ ci.in_use →
        lookupKey g (cleanup s).1.cache = some ci) ∧
    (∀ g ci, lookupKey g s.cache = some ci →
        lookupKey g (cleanup s).1.cache = none → ci.in_use < 1) ∧
    (∀ g, lookupKey g (cleanup s).1.cache =
        (if g ∈ ((timeOrderedGFNs s.cache).take (s.cacheLimit / 2)).map Prod.snd
          then none else lookupKey g s.cache)) ∧
    List.Sorted pairLe (timeOrderedGFNs s.cache) ∧
    (∀ a g, (a, g) ∈ timeOrderedGFNs s.cache ↔
        ∃ ci, lookupKey g s.cache = some ci ∧ ci.in_use < 1 ∧ ci.accessed = a) ∧
    (cleanup s).1.cache.length
        + min (s.cacheLimit / 2) (timeOrderedGFNs s.cache).length
        = s.cache.length := by
  have hnd := nodup_timeOrderedGFNs hwf.1
  have hpres : ∀ e ∈ timeOrderedGFNs s.cache,
      (lookupKey e.2 ((⟨s.cache, s.reverseCache, []⟩ : CleanupAcc)).cache).isSome = true :=
    fun e he => timeOrderedGFNs_present he
  have h3 : ∀ g, lookupKey g (cleanup s).1.cache =
      (if g ∈ ((timeOrderedGFNs s.cache).take (s.cacheLimit / 2)).map Prod.snd
        then none else lookupKey g s.cache) := by
    intro g
    have hm := cleanupLoop_lookup (s.cacheLimit / 2) (timeOrderedGFNs s.cache) 0
      ⟨s.cache, s.reverseCache, []⟩ g hwf.1 hnd hpres
    rw [Nat.sub_zero] at hm
    exact hm
  have hmem : ∀ a g, (a, g) ∈ timeOrderedGFNs s.cache ↔
      ∃ ci, lookupKey g s.cache = some ci ∧ ci.in_use < 1 ∧ ci.accessed = a :=
    fun a g => mem_timeOrderedGFNs hwf.1
  refine ⟨?_, ?_, h3, sorted_timeOrderedGFNs s.cache, hmem, ?_⟩
  · intro g ci hci hpin
    rw [h3 g]
    have hnotin : g ∉ ((timeOrderedGFNs s.cache).take (s.cacheLimit / 2)).map Prod.snd := by
      intro hin
      rcases List.mem_map.mp hin with ⟨e, he, hsnd⟩
      have he2 : e ∈ timeOrderedGFNs s.cache := List.mem_of_mem_take he
      have he3 : (e.1, g) ∈ timeOrderedGFNs s.cache := by
        rw [← hsnd, Prod.mk.eta]
        exact he2
      obtain ⟨ci', hci', hlt, -⟩ := (hmem e.1 g).mp he3
      have hcc : ci' = ci := Option.some.inj (hci'.symm.trans hci)
      rw [hcc] at hlt
      omega
    rw [if_neg hnotin]
    exact hci
  · intro g ci hci hnone
    rw [h3 g] at hnone
    by_cases hin : g ∈ ((timeOrderedGFNs s.cache).take (s.cacheLimit / 2)).map Prod.snd
    · rcases List.mem_map.mp hin with ⟨e, he, hsnd⟩
      have he2 : e ∈ timeOrderedGFNs s.cache := List.mem_of_mem_take he
      have he3 : (e.1, g) ∈ timeOrderedGFNs s.cache := by
        rw [← hsnd, Prod.mk.eta]
        exact he2
      obtain ⟨ci', hci', hlt, -⟩ := (hmem e.1 g).mp he3
      have hcc : ci' = ci := Option.some.inj (hci'.symm.trans hci)
      rw [hcc] at hlt
      exact hlt
    · rw [if_neg hin, hci] at hnone
      cases hnone
  · have hl := cleanupLoop_length (s.cacheLimit / 2) (timeOrderedGFNs s.cache) 0
      ⟨s.cache, s.reverseCache, []⟩ hwf.1 hnd hpres
    rw [Nat.sub_zero] at hl
    exact hl

theorem cleanup_evicts_only_unpinned_oldest_witness :
    wfS demoMix ∧ lookupKey 1 (cleanup demoMix).1.cache = some ⟨0, 1, 101⟩ :=
  ⟨by decide, (cleanup_evicts_only_unpinned_oldest demoMix (by decide)).1 1 ⟨0, 1, 101⟩
    (by decide) (by decide)⟩

set_option maxRecDepth 100000 in
/-- C2 counterexample: in the spec scenario (capacity 50, 50 unpinned
entries, 51st acquire) the eviction pass leaves 25 entries before the
insert and 26 after — not 26 and 27 as claimed. -/
theorem scenario_51_sizes_counterexample :
    ¬((cleanup demoFull).1.cache.length = 26 ∧
      demoAcquire.state.cache.length = 27) := by
  decide

set_option maxRecDepth 100000 in
/-- C2 amended: with capacity 50, after 50 acquire/release rounds the
store holds 50 unpinned entries stamped 0..49; acquiring a 51st gfn
triggers eviction of the 25 oldest-by-recency entries (gfns 0..24), so
the store has 25 entries before the new insert and 26 after; the other
25 entries (gfns 25..49) survive unchanged. -/
theorem scenario_51_sizes :
    demoFull.cache.length = 50 ∧
    (∀ g, g < 50 → lookupKey g demoFull.cache = some ⟨g, 0, 1000 + g⟩) ∧
    (cleanup demoFull).1.cache.length = 25 ∧
    (∀ g, g < 25 → lookupKey g (cleanup demoFull).1.cache = none) ∧
    (∀ g, g < 50 → 25 ≤ g →
      lookupKey g (cleanup demoFull).1.cache = some ⟨g, 0, 1000 + g⟩) ∧
    demoAcquire.status = MapReturnCode.MAP_SUCCESS ∧
    demoAcquire.state.cache.length = 26 ∧
    lookupKey 50 demoAcquire.state.cache = some ⟨50, 1, 1050⟩ := by
  decide

set_option maxRecDepth 100000 in
/-- C5 counterexample: when the store is at capacity, the cleanup that
runs before mapping changes the store even on the validation-rejection
path — here gfn 0 is evicted although the validator rejected the fresh
mapping — so "the store is unchanged" fails as stated. -/
theorem validation_reject_store_changed_counterexample :
    (insertNew 50 (some 1050) (-1) 1 demoFull3).status
      = MapReturnCode.MAP_PAGE_NOT_PRESENT ∧
    (lookupKey 0 demoFull3.cache).isSome = true ∧
    lookupKey 0 (insertNew 50 (some 1050) (-1) 1 demoFull3).state.cache = none := by
  decide

/-- C5 amended: when the residency validator rejects the fresh mapping,
`insertNew` unmaps that mapping exactly once, inserts nothing into
either index, and returns the page-not-present status with a null
pointer; the store is exactly what the capacity-triggered cleanup left
(and is fully unchanged when the store was below capacity, in which case
the rejected mapping is the only unmap). -/
theorem insertNew_validation_reject (gfn p : Nat) (mc : Int) (v0 : Nat)
    (s : CacheState)
    (hx : s.xciValid = true)
    (hchk : checkPages s.linuxMajVersion mc v0 = false)
    (hp : p ∉ s.cache.map (fun e => e.2.pointer)) :
    (insertNew gfn (some p) mc v0 s).status = MapReturnCode.MAP_PAGE_NOT_PRESENT ∧
    (insertNew gfn (some p) mc v0 s).pointer = none ∧
    (insertNew gfn (some p) mc v0 s).state.cache
      = (if s.cacheLimit ≤ s.cache.length then (cleanup s).1.cache else s.cache) ∧
    (insertNew gfn (some p) mc v0 s).state.reverseCache
      = (if s.cacheLimit ≤ s.cache.length then (cleanup s).1.reverseCache
         else s.reverseCache) ∧
    (insertNew gfn (some p) mc v0 s).unmaps.count p = 1 ∧
    (¬s.cacheLimit ≤ s.cache.length →
      (insertNew gfn (some p) mc v0 s).state.cache = s.cache ∧
      (insertNew gfn (some p) mc v0 s).state.reverseCache = s.reverseCache ∧
      (insertNew gfn (some p) mc v0 s).unmaps = [p]) := by
  have hxf : ¬s.xciValid = false := by
    rw [hx]
    exact fun h => by cases h
  have hcount : (cleanup s).2.count p = 0 := by
    rw [List.count_eq_zero]
    intro hin
    rcases cleanupLoop_unmaps_sub _ _ _ _ hin with h1 | h1
    · exact absurd h1 (List.not_mem_nil p)
    · exact hp h1
  simp only [insertNew, if_neg hxf]
  by_cases hcap : s.cacheLimit ≤ s.cache.length
  · rw [if_pos hcap]
    have hchk' : checkPages (cleanup s).1.linuxMajVersion mc v0 = false := hchk
    rw [if_pos hchk']
    refine ⟨rfl, rfl, by rw [if_pos hcap], by rw [if_pos hcap], ?_,
      fun hcontra => absurd hcap hcontra⟩
    rw [List.count_append, hcount]
    simp
  · rw [if_neg hcap]
    have hchk' : checkPages s.linuxMajVersion mc v0 = false := hchk
    rw [if_pos hchk']
    refine ⟨rfl, rfl, by rw [if_neg hcap], by rw [if_neg hcap], ?_,
      fun hcap2 => ⟨rfl, rfl, rfl⟩⟩
    simp

theorem insertNew_validation_reject_witness :
    (insertNew 5 (some 99) (-1) 0 demoReject).status
      = MapReturnCode.MAP_PAGE_NOT_PRESENT ∧
    (insertNew 5 (some 99) (-1) 0 demoReject).unmaps.count 99 = 1 :=
  ⟨(insertNew_validation_reject 5 99 (-1) 0 demoReject
      (by decide) (by decide) (by decide)).1,
   (insertNew_validation_reject 5 99 (-1) 0 demoReject
      (by decide) (by decide) (by decide)).2.2.2.2.1⟩

/-- C4: after any sequence of acquire / release / eviction / teardown /
capacity operations from a fresh cache (with the provider handing out
pointers that are not already live), both indices have unique keys,
every forward entry's pointer maps back to exactly its gfn, every
reverse entry comes from exactly one forward entry, and no two forward
entries share a pointer. -/
theorem index_duality (s : CacheState) (hs : Reachable s) :
    wfS s ∧
    (∀ g ci, lookupKey g s.cache = some ci →
        lookupKey ci.pointer s.reverseCache = some g) ∧
    (∀ p g, lookupKey p s.reverseCache = some g →
        ∃ ci, lookupKey g s.cache = some ci ∧ ci.pointer = p) ∧
    (∀ g g' ci ci', lookupKey g s.cache = some ci →
        lookupKey g' s.cache = some ci' → ci.pointer = ci'.pointer → g = g') := by
  obtain ⟨hw, hd⟩ := reachable_wf_dual s hs
  refine ⟨hw, hd.1, hd.2, ?_⟩
  intro g g' ci ci' h1 h2 hpe
  have r1 := hd.1 g ci h1
  have r2 := hd.1 g' ci' h2
  rw [hpe] at r1
  exact Option.some.inj (r1.symm.trans r2)

theorem index_duality_witness :
    lookupKey 11 demoDual.reverseCache = some 1 :=
  (index_duality demoDual
      (Reachable.stepUpdate 1 (some 11) 0 1 demoInit (Reachable.init true 50 4)
        (fun p hp => by cases hp; rfl))).2.1 1 ⟨0, 1, 11⟩ (by decide)

end Bdvmi
